import Mathlib

set_option linter.unusedSectionVars false

/-!
# Verification of the longevity estimation core

Shallow embedding of `longevity/estimates.py` (class `LongevityEstimator`):
the transition-matrix builder `compute_UP`, the moment engine
`compute_moments` / `compute_lifetime_estimates`, the prevalence table
`compute_disability_prevalence_by_age` / `prevalence` /
`generate_prevalence_matrix`, the inequality metrics `gini` / `theil`,
and the dataframe effect of `__init__`.

Numeric values of the Python code (floats) are embedded as elements of a
linear ordered field `K` (instantiated at `ℚ` for executable witnesses and
at `ℝ` where `exp`, `log` or `sqrt` appear).  Mortality models are embedded
as a function `pd : ℕ → K` giving the probability of death at each age,
with probability of survival `1 - pd age`; this covers both branches of the
code (the fitted classifier's `predict_proba`, which returns a pair summing
to `1`, and the `Provided` coefficient branch which sets
`p_alive = 1 - p_dead` literally).
-/

namespace Longevity

open Matrix

section TransitionMatrices

variable {K : Type} [Field K]

/-- A single element assignment `M[i, j] = v` on an (unbounded) matrix of
entries, as performed by the statements `P[r, c] = ...` in `compute_UP`.
Later writes shadow earlier ones. -/
def writeE (M : ℕ → ℕ → K) (i j : ℕ) (v : K) : ℕ → ℕ → K :=
  fun a b => if a = i ∧ b = j then v else M a b

/-- The initial array
`P = np.hstack([np.zeros((diff+1, diff)), np.hstack([np.zeros(diff), [1]]).reshape(diff+1, 1)])`:
a `(diff+1) × (diff+1)` array that is zero except for a `1` at the
bottom-right corner (the absorbing death column). -/
def initP (d : ℕ) : ℕ → ℕ → K := fun i j => if i = d ∧ j = d then 1 else 0

/-- One iteration of the loop `for age in range(self.start_age, self.end_age)`
in `compute_UP`.  The code branches on the literal test `if age != 90`:
for `age != 90` it assigns `P[age - (start_age - 1), age - start_age] = p_alive`
then `P[diff, age - start_age] = p_dead`; for `age == 90` it assigns
`P[diff - 1, diff - 1] = p_alive` then `P[diff, diff - 1] = p_dead`. -/
def upStep (startAge d : ℕ) (pd : ℕ → K) (M : ℕ → ℕ → K) (age : ℕ) : ℕ → ℕ → K :=
  if age ≠ 90 then
    writeE (writeE M (age - startAge + 1) (age - startAge) (1 - pd age)) d (age - startAge) (pd age)
  else
    writeE (writeE M (d - 1) (d - 1) (1 - pd age)) d (d - 1) (pd age)

/-- The entries of the array `P` built by `compute_UP`, as a function of the
estimator's `start_age`, `end_age` and mortality model `pd`. -/
def computePfun (startAge endAge : ℕ) (pd : ℕ → K) : ℕ → ℕ → K :=
  (List.range' startAge (endAge - startAge)).foldl
    (upStep startAge (endAge - startAge) pd) (initP (endAge - startAge))

/-- A numpy 2-d array: a shape together with its entries. -/
structure NArr (K : Type) where
  rows : ℕ
  cols : ℕ
  entry : ℕ → ℕ → K

/-- The function `compute_UP`: returns `(U, P)` where `P` is the `(diff+1) × (diff+1)`
array built by the loop and `U = P[:diff, :diff]`. -/
def computeUP (startAge endAge : ℕ) (pd : ℕ → K) : NArr K × NArr K :=
  let d := endAge - startAge
  let P : NArr K := ⟨d + 1, d + 1, computePfun startAge endAge pd⟩
  (⟨d, d, P.entry⟩, P)

/-- The array `P` of `compute_UP` as a square matrix over `Fin`. -/
def Pmat (startAge endAge : ℕ) (pd : ℕ → K) :
    Matrix (Fin (endAge - startAge + 1)) (Fin (endAge - startAge + 1)) K :=
  Matrix.of fun i j => computePfun startAge endAge pd i j

/-- The array `U = P[:diff, :diff]` of `compute_UP` as a matrix over `Fin`. -/
def Umat (startAge endAge : ℕ) (pd : ℕ → K) :
    Matrix (Fin (endAge - startAge)) (Fin (endAge - startAge)) K :=
  Matrix.of fun i j => computePfun startAge endAge pd i j

theorem writeE_apply (M : ℕ → ℕ → K) (i j a b : ℕ) (v : K) :
    writeE M i j v a b = if a = i ∧ b = j then v else M a b := rfl

/-- Closed form for a run of loop iterations in which no age equals `90`
(all ages are at most `89`): iteration `t` (age `startAge + t`) writes
`p_alive` at `(t+1, t)` and then `p_dead` at `(d, t)`, and distinct
iterations touch distinct columns. -/
theorem foldl_upStep_no90 (startAge d : ℕ) (pd : ℕ → K) (n : ℕ)
    (hn : startAge + n ≤ 90) (M : ℕ → ℕ → K) (i j : ℕ) :
    (List.range' startAge n).foldl (upStep startAge d pd) M i j =
      if j < n then
        (if i = d then pd (startAge + j)
         else if i = j + 1 then 1 - pd (startAge + j)
         else M i j)
      else M i j := by
  induction n generalizing i j with
  | zero => simp [List.range']
  | succ n ih =>
    rw [List.range'_1_concat, List.foldl_append, List.foldl_cons, List.foldl_nil]
    have hne : startAge + n ≠ 90 := by omega
    rw [upStep, if_pos hne]
    have hsub : startAge + n - startAge = n := by omega
    rw [hsub]
    rw [writeE_apply, writeE_apply]
    by_cases hj : j = n
    · subst hj
      by_cases hid : i = d
      · simp [hid, ih (by omega), lt_irrefl]
      · by_cases hij : i = j + 1
        · simp [hid, hij, ih (by omega), lt_irrefl]
        · simp only [hid, hij, and_true, and_false, if_false, if_true]
          rw [ih (by omega) i j]
          simp [hid, hij, lt_irrefl]
    · have h1 : ¬(i = d ∧ j = n) := fun h => hj h.2
      have h2 : ¬(i = n + 1 ∧ j = n) := fun h => hj h.2
      rw [if_neg h1, if_neg h2, ih (by omega) i j]
      by_cases hjn : j < n
      · simp [hjn, Nat.lt_succ_of_lt hjn]
      · have : ¬ j < n + 1 := by omega
        simp [hjn, this]

/-- Closed form for the entries of `P` in the canonical case `end_age = 91`:
the loop runs over ages `start_age, ..., 90`; every age below `90` takes the
`age != 90` branch, and the final age `90` takes the self-loop branch. -/
theorem computePfun_canonical (s : ℕ) (pd : ℕ → K) (hs : s < 91) (i j : ℕ) :
    computePfun s 91 pd i j =
      if i = 91 - s ∧ j = 91 - s - 1 then pd 90
      else if i = 91 - s - 1 ∧ j = 91 - s - 1 then 1 - pd 90
      else if j < 91 - s - 1 then
        (if i = 91 - s then pd (s + j)
         else if i = j + 1 then 1 - pd (s + j)
         else 0)
      else if i = 91 - s ∧ j = 91 - s then 1 else 0 := by
  have h91 : 91 - s = 90 - s + 1 := by omega
  rw [computePfun, h91, List.range'_1_concat]
  have h90 : s + (90 - s) = 90 := by omega
  rw [h90, List.foldl_append, List.foldl_cons, List.foldl_nil]
  rw [upStep, if_neg (fun h => h rfl), writeE_apply, writeE_apply]
  rw [foldl_upStep_no90 s (90 - s + 1) pd (90 - s) (by omega)]
  simp only [Nat.add_sub_cancel, initP]
  split_ifs <;> first | rfl | omega

/-- Closed form for the entries of `P` when `end_age ≤ 90`: every modeled age
takes the `age != 90` branch; in particular the final age writes `p_alive`
into the absorbing row `diff` and then overwrites it with `p_dead`. -/
theorem computePfun_no90 (s e : ℕ) (pd : ℕ → K) (hse : s ≤ e) (he : e ≤ 90) (i j : ℕ) :
    computePfun s e pd i j =
      if j < e - s then
        (if i = e - s then pd (s + j)
         else if i = j + 1 then 1 - pd (s + j)
         else 0)
      else initP (e - s) i j := by
  rw [computePfun, foldl_upStep_no90 s (e - s) pd (e - s) (by omega)]
  simp only [initP]
  split_ifs <;> first | rfl | omega

end TransitionMatrices

section SumHelpers

variable {K : Type} [Field K]

theorem sum_ite_one {m : ℕ} (a : Fin m) (x : K) :
    (∑ i : Fin m, if i = a then x else 0) = x := by
  rw [Finset.sum_ite_eq' Finset.univ a fun _ => x]
  simp

theorem sum_ite_two {m : ℕ} (a b : Fin m) (hab : a ≠ b) (x y : K) :
    (∑ i : Fin m, if i = a then x else if i = b then y else 0) = x + y := by
  have hsplit : ∀ i : Fin m, (if i = a then x else if i = b then y else 0)
      = (if i = a then x else 0) + (if i = b then y else 0) := by
    intro i
    by_cases h1 : i = a
    · subst h1
      rw [if_pos rfl, if_pos rfl, if_neg hab, add_zero]
    · rw [if_neg h1, if_neg h1, zero_add]
  rw [Finset.sum_congr rfl fun i _ => hsplit i, Finset.sum_add_distrib,
    Finset.sum_ite_eq' Finset.univ a fun _ => x, Finset.sum_ite_eq' Finset.univ b fun _ => y]
  simp

end SumHelpers

section SumHelpersVal

variable {K : Type} [Field K]

theorem sum_ite_val_one {m : ℕ} (av : ℕ) (ha : av < m) (x : K) :
    (∑ i : Fin m, if (i : ℕ) = av then x else 0) = x := by
  have hrw : ∀ i : Fin m, (if (i : ℕ) = av then x else 0)
      = (if i = (⟨av, ha⟩ : Fin m) then x else 0) := by
    intro i
    simp [Fin.ext_iff]
  rw [Finset.sum_congr rfl fun i _ => hrw i]
  exact sum_ite_one _ x

theorem sum_ite_val_two {m : ℕ} (av bv : ℕ) (ha : av < m) (hb : bv < m) (hab : av ≠ bv)
    (x y : K) :
    (∑ i : Fin m, if (i : ℕ) = av then x else if (i : ℕ) = bv then y else 0) = x + y := by
  have hrw : ∀ i : Fin m, (if (i : ℕ) = av then x else if (i : ℕ) = bv then y else 0)
      = (if i = (⟨av, ha⟩ : Fin m) then x else if i = (⟨bv, hb⟩ : Fin m) then y else 0) := by
    intro i
    simp [Fin.ext_iff]
  rw [Finset.sum_congr rfl fun i _ => hrw i]
  exact sum_ite_two _ _ (by simp [Fin.ext_iff, hab]) x y

end SumHelpersVal

section ClaimsUP

variable {K : Type} [Field K]

/-- C1 (amended): when the modeled age range ends at the open-ended top age
group `90` (that is, `end_age = 91`, the value produced by the pipeline's
default configuration), every column of the array `P` returned by
`compute_UP` sums to exactly `1`, for any mortality model `pd`. -/
theorem compute_UP_col_sums (s : ℕ) (pd : ℕ → K) (hs : s < 91) (j : Fin (91 - s + 1)) :
    ∑ i, Pmat s 91 pd i j = 1 := by
  have hd : 1 ≤ 91 - s := by omega
  have hjlt : (j : ℕ) < 91 - s + 1 := j.isLt
  rcases (by omega : (j : ℕ) < 91 - s - 1 ∨ (j : ℕ) = 91 - s - 1 ∨ (j : ℕ) = 91 - s)
    with hj | hj | hj
  · have hcol : ∀ i : Fin (91 - s + 1), Pmat s 91 pd i j =
        (if (i : ℕ) = 91 - s then pd (s + (j : ℕ))
         else if (i : ℕ) = (j : ℕ) + 1 then 1 - pd (s + (j : ℕ)) else 0) := by
      intro i
      rw [Pmat, Matrix.of_apply, computePfun_canonical s pd hs]
      split_ifs <;> first | rfl | omega
    rw [Finset.sum_congr rfl fun i _ => hcol i,
      sum_ite_val_two (91 - s) ((j : ℕ) + 1) (by omega) (by omega) (by omega)]
    ring
  · have hcol : ∀ i : Fin (91 - s + 1), Pmat s 91 pd i j =
        (if (i : ℕ) = 91 - s then pd 90
         else if (i : ℕ) = 91 - s - 1 then 1 - pd 90 else 0) := by
      intro i
      rw [Pmat, Matrix.of_apply, computePfun_canonical s pd hs]
      split_ifs <;> first | rfl | omega
    rw [Finset.sum_congr rfl fun i _ => hcol i,
      sum_ite_val_two (91 - s) (91 - s - 1) (by omega) (by omega) (by omega)]
    ring
  · have hcol : ∀ i : Fin (91 - s + 1), Pmat s 91 pd i j =
        (if (i : ℕ) = 91 - s then 1 else 0) := by
      intro i
      rw [Pmat, Matrix.of_apply, computePfun_canonical s pd hs]
      split_ifs <;> first | rfl | omega
    rw [Finset.sum_congr rfl fun i _ => hcol i,
      sum_ite_val_one (91 - s) (by omega)]

/-- C1 witness: at `start_age = 89`, `end_age = 91` with the constant
mortality model `p_dead = 1/2`, the first column of `P` sums to `1`. -/
theorem compute_UP_col_sums_witness :
    ∑ i, Pmat 89 91 (fun _ => (1 : ℚ)/2) i (0 : Fin (91 - 89 + 1)) = 1 :=
  compute_UP_col_sums 89 (fun _ => (1 : ℚ)/2) (by omega) 0

/-- C1 counterexample: for the age range `start_age = 50`, `end_age = 52`
(`diff = 2 ≥ 1`) and the valid mortality model with constant
`p_dead = 1/2` (exactly what an all-zero `Provided` coefficient set
produces), the final column of `P` sums to `1/2`, not `1`: the loop's
hardcoded `if age != 90` test makes the final age write `p_alive` into the
absorbing row, where it is immediately overwritten by `p_dead`. -/
theorem compute_UP_col_sums_counterexample :
    ¬ (∑ i : Fin (52 - 50 + 1),
        Pmat 50 52 (fun _ => (1 : ℚ)/2) i ⟨1, by omega⟩) = 1 := by
  have hcol : ∀ i : Fin (52 - 50 + 1),
      Pmat 50 52 (fun _ => (1 : ℚ)/2) i ⟨1, by omega⟩
        = (if (i : ℕ) = 2 then (1 : ℚ)/2 else 0) := by
    intro i
    rw [Pmat, Matrix.of_apply, computePfun_no90 50 52 _ (by omega) (by omega)]
    simp only [initP]
    split_ifs <;> first | rfl | omega
  rw [Finset.sum_congr rfl fun i _ => hcol i, sum_ite_val_one 2 (by omega)]
  norm_num

/-- C3 (amended): placement of the probabilities written by `compute_UP`,
for any `start_age < end_age ≤ 91`.
(1) For every modeled age except the last one, column `age - start_age`
receives `p_alive` on the advance-one-age row `age - start_age + 1` and
`p_dead` on the absorbing row `diff`.
(2) If `end_age = 91`, the final modeled age is the literal `90` tested by
the code, and its survivor probability is a self-loop on the last transient
state, with `p_dead` on the absorbing row.
(3) If `end_age ≤ 90`, the final modeled age takes the generic branch, whose
advance-one-age row is the absorbing row itself: `p_alive` is overwritten,
the final column carries only `p_dead`, and no self-loop is written. -/
theorem compute_UP_placement (s e : ℕ) (pd : ℕ → K) (hse : s < e) (he : e ≤ 91) :
    (∀ j : ℕ, j < e - s → j ≠ e - s - 1 →
      computePfun s e pd (j + 1) j = 1 - pd (s + j) ∧
      computePfun s e pd (e - s) j = pd (s + j)) ∧
    (e = 91 →
      computePfun s e pd (e - s - 1) (e - s - 1) = 1 - pd 90 ∧
      computePfun s e pd (e - s) (e - s - 1) = pd 90) ∧
    (e ≤ 90 →
      computePfun s e pd (e - s) (e - s - 1) = pd (e - 1) ∧
      ∀ i : ℕ, i ≠ e - s → computePfun s e pd i (e - s - 1) = 0) := by
  refine ⟨?_, ?_, ?_⟩
  · intro j hj hjne
    by_cases he91 : e = 91
    · subst he91
      constructor
      · rw [computePfun_canonical s pd (by omega)]
        split_ifs <;> first | rfl | omega
      · rw [computePfun_canonical s pd (by omega)]
        split_ifs <;> first | rfl | omega
    · have he90 : e ≤ 90 := by omega
      constructor
      · rw [computePfun_no90 s e pd (by omega) he90]
        split_ifs <;> first | rfl | omega
      · rw [computePfun_no90 s e pd (by omega) he90]
        split_ifs <;> first | rfl | omega
  · intro he91
    subst he91
    constructor
    · rw [computePfun_canonical s pd (by omega)]
      split_ifs <;> first | rfl | omega
    · rw [computePfun_canonical s pd (by omega)]
      split_ifs <;> first | rfl | omega
  · intro he90
    constructor
    · rw [computePfun_no90 s e pd (by omega) he90]
      have harith : s + (e - s - 1) = e - 1 := by omega
      split_ifs <;> first | omega | rw [harith]
    · intro i hi
      rw [computePfun_no90 s e pd (by omega) he90, initP]
      split_ifs <;> first | rfl | omega

/-- C3 witness: at `start_age = 89`, `end_age = 91` with constant
`p_dead = 1/2`, the non-final age `89` writes `p_alive = 1/2` on the
advance-one-age row of its column. -/
theorem compute_UP_placement_witness :
    computePfun 89 91 (fun _ => (1 : ℚ)/2) (0 + 1) 0 = 1 - (fun _ => (1 : ℚ)/2) (89 + 0) :=
  ((compute_UP_placement 89 91 (fun _ => (1 : ℚ)/2) (by omega) (by omega)).1
    0 (by omega) (by omega)).1

/-- C3 counterexample: for `start_age = 50`, `end_age = 52` the final
modeled age is `51`; the claim puts its survivor probability `1/2` as a
self-loop at entry `(diff - 1, diff - 1) = (1, 1)` of `P`, but the code
leaves that entry at `0` (the survivor probability is discarded into the
absorbing row, because the self-loop branch only triggers at the literal
age `90`). -/
theorem compute_UP_placement_counterexample :
    computePfun 50 52 (fun _ => (1 : ℚ)/2) 1 1 = 0 ∧
      (0 : ℚ) ≠ 1 - (1 : ℚ)/2 := by
  constructor
  · rw [computePfun_no90 50 52 _ (by omega) (by omega)]
    simp only [initP]
    split_ifs <;> first | rfl | omega
  · norm_num

/-- C6 (amended): `compute_UP` returns `P` of shape
`(diff + 1) × (diff + 1)` — one extra row *and* one extra column relative to
`U`, both indexed by the absorbing death state — and `U` is the `diff × diff`
block `P[:diff, :diff]`, i.e. `P` with the absorbing row and the absorbing
column removed; the entries of `U` are those of `P` at the shared indices. -/
theorem compute_UP_shapes (s e : ℕ) (pd : ℕ → K) :
    (computeUP s e pd).2.rows = (e - s) + 1 ∧
    (computeUP s e pd).2.cols = (e - s) + 1 ∧
    (computeUP s e pd).1.rows = e - s ∧
    (computeUP s e pd).1.cols = e - s ∧
    ∀ i j : ℕ, (computeUP s e pd).1.entry i j = (computeUP s e pd).2.entry i j :=
  ⟨rfl, rfl, rfl, rfl, fun _ _ => rfl⟩

/-- C6 counterexample: with `diff = 2` (for instance `start_age = 89`,
`end_age = 91`), the array `P` returned by `compute_UP` has `3` columns,
not the `diff = 2` columns the claim states, so `U` (2 columns) is not
`P` restricted to its first `diff` rows (which would keep 3 columns). -/
theorem compute_UP_shapes_counterexample :
    (computeUP 89 91 (fun _ => (1 : ℚ)/2)).2.cols = 3 ∧
      (computeUP 89 91 (fun _ => (1 : ℚ)/2)).1.cols = 2 ∧ (3 : ℕ) ≠ 2 := by
  refine ⟨rfl, rfl, by omega⟩

end ClaimsUP

section ClaimC4

variable {K : Type} [Field K]

theorem prod_ite_val_one {m : ℕ} (av : ℕ) (ha : av < m) (x : K) :
    (∏ i : Fin m, if (i : ℕ) = av then x else 1) = x := by
  have hrw : ∀ i : Fin m, (if (i : ℕ) = av then x else 1)
      = (if i = (⟨av, ha⟩ : Fin m) then x else 1) := by
    intro i
    simp [Fin.ext_iff]
  rw [Finset.prod_congr rfl fun i _ => hrw i,
    Finset.prod_ite_eq' Finset.univ (⟨av, ha⟩ : Fin m) fun _ => x]
  simp

theorem Umat_canonical_apply (s : ℕ) (pd : ℕ → K) (hs : s < 91) (i j : Fin (91 - s)) :
    Umat s 91 pd i j =
      if (i : ℕ) = 91 - s - 1 ∧ (j : ℕ) = 91 - s - 1 then 1 - pd 90
      else if (j : ℕ) < 91 - s - 1 ∧ (i : ℕ) = (j : ℕ) + 1 then 1 - pd (s + (j : ℕ))
      else 0 := by
  have hi := i.isLt
  have hj := j.isLt
  rw [Umat, Matrix.of_apply, computePfun_canonical s pd hs]
  split_ifs <;> first | rfl | omega

theorem Umat_no90_apply (s e : ℕ) (pd : ℕ → K) (hse : s ≤ e) (he : e ≤ 90)
    (i j : Fin (e - s)) :
    Umat s e pd i j = if (i : ℕ) = (j : ℕ) + 1 then 1 - pd (s + (j : ℕ)) else 0 := by
  have hi := i.isLt
  have hj := j.isLt
  rw [Umat, Matrix.of_apply, computePfun_no90 s e pd hse he]
  simp only [initP]
  split_ifs <;> first | rfl | omega

/-- In the canonical case `end_age = 91`, the matrix `I - U` inverted by
`compute_moments` is lower triangular with determinant `p_dead(90)`:
the only nonzero diagonal entry of `U` is the final-age self-loop. -/
theorem det_one_sub_Umat_canonical (s : ℕ) (pd : ℕ → K) (hs : s < 91) :
    (1 - Umat s 91 pd).det = pd 90 := by
  have htri : (1 - Umat s 91 pd).BlockTriangular OrderDual.toDual := by
    intro i j hij
    have hij' : i < j := OrderDual.toDual_lt_toDual.mp hij
    have hijv : (i : ℕ) < (j : ℕ) := hij'
    have h1 : (1 : Matrix (Fin (91 - s)) (Fin (91 - s)) K) i j = 0 :=
      Matrix.one_apply_ne (ne_of_lt hij')
    have h2 : Umat s 91 pd i j = 0 := by
      rw [Umat_canonical_apply s pd hs]
      split_ifs <;> first | rfl | omega
    rw [Matrix.sub_apply, h1, h2, sub_zero]
  rw [Matrix.det_of_lowerTriangular _ htri]
  have hdiag : ∀ i : Fin (91 - s),
      (1 - Umat s 91 pd) i i = (if (i : ℕ) = 91 - s - 1 then pd 90 else 1) := by
    intro i
    rw [Matrix.sub_apply, Matrix.one_apply_eq, Umat_canonical_apply s pd hs]
    split_ifs <;> first | omega | ring1
  rw [Finset.prod_congr rfl fun i _ => hdiag i, prod_ite_val_one (91 - s - 1) (by omega)]

/-- When `end_age ≤ 90` there is no self-loop at all: `U` is strictly lower
triangular, and `I - U` has determinant `1` regardless of the `p_dead`
values. -/
theorem det_one_sub_Umat_no90 (s e : ℕ) (pd : ℕ → K) (hse : s ≤ e) (he : e ≤ 90) :
    (1 - Umat s e pd).det = 1 := by
  have htri : (1 - Umat s e pd).BlockTriangular OrderDual.toDual := by
    intro i j hij
    have hij' : i < j := OrderDual.toDual_lt_toDual.mp hij
    have hijv : (i : ℕ) < (j : ℕ) := hij'
    have h1 : (1 : Matrix (Fin (e - s)) (Fin (e - s)) K) i j = 0 :=
      Matrix.one_apply_ne (ne_of_lt hij')
    have h2 : Umat s e pd i j = 0 := by
      rw [Umat_no90_apply s e pd hse he]
      split_ifs <;> first | rfl | omega
    rw [Matrix.sub_apply, h1, h2, sub_zero]
  rw [Matrix.det_of_lowerTriangular _ htri]
  have hdiag : ∀ i : Fin (e - s), (1 - Umat s e pd) i i = 1 := by
    intro i
    rw [Matrix.sub_apply, Matrix.one_apply_eq, Umat_no90_apply s e pd hse he]
    split_ifs <;> first | omega | ring1
  rw [Finset.prod_congr rfl fun i _ => hdiag i, Finset.prod_const_one]

/-- C4 (amended): the matrix `I - U` that `compute_moments` inverts to build
the fundamental matrix `N` is invertible **iff** `p_dead` at the hardcoded
top age `90` is nonzero when `end_age = 91` (and always when
`end_age ≤ 90`).  In particular `N` exists whenever every modeled
`p_dead > 0`, but a zero `p_dead` at any age other than the final age `90`
does *not* make `I - U` singular. -/
theorem fundamental_matrix_exists_iff (s e : ℕ) (pd : ℕ → K) (hse : s < e) (he : e ≤ 91) :
    IsUnit (1 - Umat s e pd).det ↔ (e = 91 → pd 90 ≠ 0) := by
  by_cases he91 : e = 91
  · subst he91
    rw [det_one_sub_Umat_canonical s pd (by omega)]
    simp [isUnit_iff_ne_zero]
  · rw [det_one_sub_Umat_no90 s e pd (by omega) (by omega)]
    simp [he91]

/-- C4 witness: for `start_age = 89`, `end_age = 91` and constant
`p_dead = 1/2 > 0`, `I - U` is invertible. -/
theorem fundamental_matrix_exists_iff_witness :
    IsUnit (1 - Umat 89 91 (fun _ => (1 : ℚ)/2)).det :=
  (fundamental_matrix_exists_iff 89 91 (fun _ => (1 : ℚ)/2) (by omega)
    (by omega)).mpr (fun _ => by norm_num)

/-- C4 counterexample: the mortality values `p_dead(89) = 0`,
`p_dead(90) = 1/2` (age range `89..91`) have a modeled `p_dead` equal to
zero, yet `I - U` is invertible, so `np.linalg.inv` succeeds and no
`NumericalError` is raised — refuting the claim that any zero `p_dead`
makes the construction of `N` fail. -/
theorem fundamental_matrix_exists_iff_counterexample :
    (fun a => if a = 89 then (0 : ℚ) else 1/2) 89 = 0 ∧
      IsUnit (1 - Umat 89 91 (fun a => if a = 89 then (0 : ℚ) else 1/2)).det := by
  constructor
  · norm_num
  · rw [det_one_sub_Umat_canonical 89 _ (by omega)]
    norm_num [isUnit_iff_ne_zero]

end ClaimC4

section Moments

variable {K : Type} [Field K]

/-- The matrix `Z = np.hstack([np.eye(self.diff), np.zeros((self.diff, 1))])`:
the identity over transient states padded with a zero column. -/
def matZ (d : ℕ) : Matrix (Fin d) (Fin (d + 1)) K :=
  Matrix.of fun i j => if (j : ℕ) = (i : ℕ) then 1 else 0

/-- The column `ones = np.matrix(np.ones(self.diff + 1)).T`: a column of ones. -/
def onesCol (d : ℕ) : Matrix (Fin (d + 1)) (Fin 1) K :=
  Matrix.of fun _ _ => 1

/-- The reward matrix used when `healthy_life_only` is false:
`np.hstack([np.vstack([np.ones((diff, diff)), np.ones(diff) / 2]), np.zeros((diff + 1, 1))])`
— reward `1` on transitions out of a transient state into a transient row,
`1/2` on the absorbing row, `0` on the absorbing column. -/
def rewardTotal (d : ℕ) : Matrix (Fin (d + 1)) (Fin (d + 1)) K :=
  Matrix.of fun i j => if (j : ℕ) = d then 0 else if (i : ℕ) = d then 1/2 else 1

/-- The list `m` of `generate_prevalence_matrix`: the per-age prevalence
values for the `diff` modeled ages, with an appended final `0`. -/
def prevListVal (d : ℕ) (pv : ℕ → K) (j : ℕ) : K := if j < d then pv j else 0

/-- The method `generate_prevalence_matrix`:
`1 - np.vstack([[m] * (len(m) - 1), [i / 2 for i in m]])`, a
`(diff+1) × (diff+1)` matrix whose first `diff` rows are the identical row
`1 - m` and whose last row is `1 - m/2`. -/
def generatePrevalenceMatrix (d : ℕ) (pv : ℕ → K) : Matrix (Fin (d + 1)) (Fin (d + 1)) K :=
  Matrix.of fun i j =>
    if (i : ℕ) = d then 1 - prevListVal d pv (j : ℕ) / 2
    else 1 - prevListVal d pv (j : ℕ)

/-- The method `compute_moments(U, P, prevalence_matrix, healthy_life_only)`, transcribed
from the code with numpy's left-associated `@` products:
`rho_1 = N.T @ Z @ (P ∘ R).T @ ones`, etc. -/
noncomputable def computeMoments (d : ℕ) (U : Matrix (Fin d) (Fin d) K)
    (P prevM : Matrix (Fin (d + 1)) (Fin (d + 1)) K) (healthy : Bool) :
    Matrix (Fin d) (Fin 1) K × Matrix (Fin d) (Fin 1) K × Matrix (Fin d) (Fin 1) K :=
  let Z := matZ (K := K) d
  let N := (1 - U)⁻¹
  let R1 := if healthy then prevM else rewardTotal d
  let R2 := R1
  let R3 := R1
  let o := onesCol (K := K) d
  let rho1 := Nᵀ * Z * (Matrix.hadamard P R1)ᵀ * o
  let R1t := Z * R1 * Zᵀ
  let rho2 := Nᵀ * (Z * (Matrix.hadamard P R2)ᵀ * o + ((2 : K) • (Matrix.hadamard U R1t)ᵀ) * rho1)
  let R2t := Z * R2 * Zᵀ
  let rho3 := Nᵀ * (Z * (Matrix.hadamard P R3)ᵀ * o + ((3 : K) • (Matrix.hadamard U R2t)ᵀ) * rho1
    + ((3 : K) • (Matrix.hadamard U R1t)ᵀ) * rho2)
  (rho1, rho2, rho3)

/-- The method `compute_lifetime_estimates(healthy_life_only)`: builds the prevalence
matrix and `(U, P)`, computes the first two moments, and returns
`mu = rho_1` (squeezed) and `std = np.sqrt(m2 - mu * mu)` per starting age.
The estimator's per-age prevalence values are abstracted as `pv`. -/
noncomputable def computeLifetimeEstimates (s e : ℕ) (pd pv : ℕ → ℝ) (healthy : Bool) :
    (Fin (e - s) → ℝ) × (Fin (e - s) → ℝ) :=
  let m := computeMoments (e - s) (Umat s e pd) (Pmat s e pd)
    (generatePrevalenceMatrix (e - s) (fun j => pv (s + j))) healthy
  (fun i => m.1 i 0, fun i => Real.sqrt (m.2.1 i 0 - m.1 i 0 * m.1 i 0))

/-- The spec's first moment `ρ1 = Nᵗ · Z · (P∘R1)ᵗ · 1`, with
`N = (I − U)⁻¹`, `Z` the padded identity, `∘` the Hadamard product and `1`
a column of ones (written here with explicit right-nested products). -/
noncomputable def specRho1 (d : ℕ) (U : Matrix (Fin d) (Fin d) K)
    (P prevM : Matrix (Fin (d + 1)) (Fin (d + 1)) K) (healthy : Bool) :
    Matrix (Fin d) (Fin 1) K :=
  let Z := matZ (K := K) d
  let N := (1 - U)⁻¹
  let R1 := if healthy then prevM else rewardTotal d
  Nᵀ * (Z * ((Matrix.hadamard P R1)ᵀ * onesCol d))

/-- The spec's second moment
`ρ2 = Nᵗ · [ Z·(P∘R2)ᵗ·1 + 2·(U∘R1~)ᵗ·ρ1 ]` with `R1~ = Z·R1·Zᵗ`. -/
noncomputable def specRho2 (d : ℕ) (U : Matrix (Fin d) (Fin d) K)
    (P prevM : Matrix (Fin (d + 1)) (Fin (d + 1)) K) (healthy : Bool) :
    Matrix (Fin d) (Fin 1) K :=
  let Z := matZ (K := K) d
  let N := (1 - U)⁻¹
  let R := if healthy then prevM else rewardTotal d
  let R1t := Z * R * Zᵀ
  Nᵀ * (Z * ((Matrix.hadamard P R)ᵀ * onesCol d)
    + (2 : K) • ((Matrix.hadamard U R1t)ᵀ * specRho1 d U P prevM healthy))

/-- The spec's third moment
`ρ3 = Nᵗ · [ Z·(P∘R3)ᵗ·1 + 3·(U∘R2~)ᵗ·ρ1 + 3·(U∘R1~)ᵗ·ρ2 ]`
with `R2~ = Z·R2·Zᵗ`. -/
noncomputable def specRho3 (d : ℕ) (U : Matrix (Fin d) (Fin d) K)
    (P prevM : Matrix (Fin (d + 1)) (Fin (d + 1)) K) (healthy : Bool) :
    Matrix (Fin d) (Fin 1) K :=
  let Z := matZ (K := K) d
  let N := (1 - U)⁻¹
  let R := if healthy then prevM else rewardTotal d
  let R1t := Z * R * Zᵀ
  let R2t := Z * R * Zᵀ
  Nᵀ * (Z * ((Matrix.hadamard P R)ᵀ * onesCol d)
    + (3 : K) • ((Matrix.hadamard U R2t)ᵀ * specRho1 d U P prevM healthy)
    + (3 : K) • ((Matrix.hadamard U R1t)ᵀ * specRho2 d U P prevM healthy))

end Moments

section ClaimC2

/-- C2 (confirmed): `compute_moments` returns exactly the spec's
mixed-moment recursion `(ρ1, ρ2, ρ3)` — same order of products and same use
of Hadamard versus matrix products — and `compute_lifetime_estimates`
returns per starting age `mean = ρ1` and `std = sqrt(ρ2 - ρ1²)`
elementwise, where the moments are computed from the pipeline's own
`U`, `P` and prevalence matrix. -/
theorem compute_moments_matches_spec :
    (∀ (K : Type) [Field K] (d : ℕ) (U : Matrix (Fin d) (Fin d) K)
      (P prevM : Matrix (Fin (d + 1)) (Fin (d + 1)) K) (healthy : Bool),
      computeMoments d U P prevM healthy =
        (specRho1 d U P prevM healthy, specRho2 d U P prevM healthy,
          specRho3 d U P prevM healthy)) ∧
    (∀ (s e : ℕ) (pd pv : ℕ → ℝ) (healthy : Bool),
      computeLifetimeEstimates s e pd pv healthy =
        (fun i => specRho1 (e - s) (Umat s e pd) (Pmat s e pd)
          (generatePrevalenceMatrix (e - s) (fun j => pv (s + j))) healthy i 0,
         fun i => Real.sqrt (specRho2 (e - s) (Umat s e pd) (Pmat s e pd)
            (generatePrevalenceMatrix (e - s) (fun j => pv (s + j))) healthy i 0
          - (specRho1 (e - s) (Umat s e pd) (Pmat s e pd)
              (generatePrevalenceMatrix (e - s) (fun j => pv (s + j))) healthy i 0) ^ 2))) := by
  have hmain : ∀ (K : Type) [Field K] (d : ℕ) (U : Matrix (Fin d) (Fin d) K)
      (P prevM : Matrix (Fin (d + 1)) (Fin (d + 1)) K) (healthy : Bool),
      computeMoments d U P prevM healthy =
        (specRho1 d U P prevM healthy, specRho2 d U P prevM healthy,
          specRho3 d U P prevM healthy) := by
    intro K _ d U P prevM healthy
    simp only [computeMoments, specRho1, specRho2, specRho3, Matrix.smul_mul,
      Matrix.mul_assoc]
  refine ⟨hmain, ?_⟩
  intro s e pd pv healthy
  rw [computeLifetimeEstimates, hmain]
  refine congrArg₂ Prod.mk rfl ?_
  funext i
  rw [sq]

end ClaimC2

section PrevalenceTable

/-- One row of the observation table, with the fields used by
`compute_disability_prevalence_by_age` (`mergeid` is only counted, never
inspected, so it is not carried). -/
structure Obs where
  disabled : ℕ
  is_aged : ℕ
  income_dcl : ℕ

/-- Count of the numerator pivot cell `(a, dcl)`: rows with `disabled == 1`
and `is_aged < 88` at that age and income decile. -/
def numCount (obs : List Obs) (a dcl : ℕ) : ℕ :=
  obs.countP fun r => decide (r.disabled = 1 ∧ r.is_aged < 88 ∧ r.is_aged = a ∧ r.income_dcl = dcl)

/-- Count of the denominator pivot cell `(a, dcl)`: rows with
`disabled == 0` and `is_aged < 88` at that age and income decile. -/
def denCount (obs : List Obs) (a dcl : ℕ) : ℕ :=
  obs.countP fun r => decide (r.disabled = 0 ∧ r.is_aged < 88 ∧ r.is_aged = a ∧ r.income_dcl = dcl)

/-- Age `a` occurs as a row label of the numerator pivot. -/
abbrev numRowPresent (obs : List Obs) (a : ℕ) : Prop :=
  0 < obs.countP fun r => decide (r.disabled = 1 ∧ r.is_aged < 88 ∧ r.is_aged = a)

/-- Income decile `dcl` occurs as a column label of the numerator pivot. -/
abbrev numColPresent (obs : List Obs) (dcl : ℕ) : Prop :=
  0 < obs.countP fun r => decide (r.disabled = 1 ∧ r.is_aged < 88 ∧ r.income_dcl = dcl)

/-- Age `a` occurs as a row label of the denominator pivot. -/
abbrev denRowPresent (obs : List Obs) (a : ℕ) : Prop :=
  0 < obs.countP fun r => decide (r.disabled = 0 ∧ r.is_aged < 88 ∧ r.is_aged = a)

/-- Income decile `dcl` occurs as a column label of the denominator pivot. -/
abbrev denColPresent (obs : List Obs) (dcl : ℕ) : Prop :=
  0 < obs.countP fun r => decide (r.disabled = 0 ∧ r.is_aged < 88 ∧ r.income_dcl = dcl)

/-- Row label set of the aligned quotient frame (union of both pivots). -/
abbrev unionRow (obs : List Obs) (a : ℕ) : Prop :=
  numRowPresent obs a ∨ denRowPresent obs a

/-- Column label set of the aligned quotient frame. -/
abbrev unionCol (obs : List Obs) (dcl : ℕ) : Prop :=
  numColPresent obs dcl ∨ denColPresent obs dcl

/-- The value of cell `(a, dcl)` of
`(numerator_pivot.replace(nan, 0) / denominator_pivot)`, following pandas
semantics: the numerator contributes a number (possibly `0`) exactly on the
numerator pivot's own grid (NaNs replaced by `0`); the denominator
contributes a number exactly where its cell count is positive (count pivots
hold NaN, never `0`, on empty cells, and the NaN replacement is applied to
the numerator only); every other aligned cell is NaN (`none`). -/
def pivotRatio (obs : List Obs) (a dcl : ℕ) : Option ℚ :=
  if numRowPresent obs a ∧ numColPresent obs dcl ∧ 0 < denCount obs a dcl
  then some ((numCount obs a dcl : ℚ) / (denCount obs a dcl : ℚ))
  else none

/-- The dictionary lookup performed by `prevalence`:
`self.disability_prevalence[('mergeid', income_dcl)].get(float(age), 0)`.
A decile absent from the aligned frame raises `KeyError` (`Except.error`);
an age absent from the aligned frame falls back to the `.get` default `0`;
otherwise the stored cell value (possibly NaN = `none`) is returned. -/
def lookupPrevalence (obs : List Obs) (dcl a : ℕ) : Except Unit (Option ℚ) :=
  if unionCol obs dcl then
    Except.ok (if unionRow obs a then pivotRatio obs a dcl else some 0)
  else Except.error ()

/-- The list `ps` built by `prevalence` over `range(start_age, end_age)`. -/
def prevalenceList (obs : List Obs) (dcl s e : ℕ) : List (Except Unit (Option ℚ)) :=
  (List.range' s (e - s)).map fun a => lookupPrevalence obs dcl a

/-- The method `prevalence(age)` returns `ps[int(age - self.start_age)]` (meaningful for
`start_age ≤ age < end_age`, the only way the estimator calls it). -/
def prevalenceAt (obs : List Obs) (dcl s e age : ℕ) : Except Unit (Option ℚ) :=
  (prevalenceList obs dcl s e).getD (age - s) (Except.ok (some 0))

theorem prevalenceAt_in_range (obs : List Obs) (dcl s e age : ℕ)
    (h1 : s ≤ age) (h2 : age < e) :
    prevalenceAt obs dcl s e age = lookupPrevalence obs dcl age := by
  have hlt : age - s < e - s := by omega
  rw [prevalenceAt, prevalenceList, List.getD_eq_getElem?_getD, List.getElem?_map,
    List.getElem?_range' s 1 hlt]
  have harith : s + 1 * (age - s) = age := by omega
  rw [harith]
  rfl

/-- C7 (amended): the prevalence lookup returns `0` (with no error) for an
`(age, income_decile)` cell only when the age appears in *neither* pivot;
when the cell's numerator row and column are present but its denominator
count is zero or missing, the stored value is NaN — the NaN-replacement is
applied to the numerator pivot only, before the division — and the lookup
returns that NaN, not `0`. -/
theorem prevalence_lookup_missing (obs : List Obs) (a dcl : ℕ) :
    (unionCol obs dcl → ¬ unionRow obs a →
      lookupPrevalence obs dcl a = Except.ok (some 0)) ∧
    (numRowPresent obs a → numColPresent obs dcl → denCount obs a dcl = 0 →
      lookupPrevalence obs dcl a = Except.ok none) := by
  constructor
  · intro hc hr
    rw [lookupPrevalence, if_pos hc, if_neg hr]
  · intro hr hc hden
    have hu : unionCol obs dcl := Or.inl hc
    have hur : unionRow obs a := Or.inl hr
    rw [lookupPrevalence, if_pos hu, if_pos hur, pivotRatio, if_neg]
    intro h
    rw [hden] at h
    exact absurd h.2.2 (lt_irrefl 0)

/-- C7 witness: for the single-row table `[disabled=1, is_aged=70, dcl=0]`,
the cell `(70, 0)` has a present numerator but a missing denominator, and
the lookup yields NaN. -/
theorem prevalence_lookup_missing_witness :
    lookupPrevalence [Obs.mk 1 70 0] 0 70 = Except.ok none :=
  (prevalence_lookup_missing [Obs.mk 1 70 0] 70 0).2 (by decide) (by decide) (by decide)

/-- C7 counterexample: the observation table with a single row
`disabled=1, is_aged=70, income_dcl=0` has a zero/missing denominator at
cell `(70, 0)`, yet `prevalence(70)` returns NaN (`none`), not `0`:
`0/NaN = NaN` survives into the dictionary, and `.get(70.0, 0)` finds the
key, so the documented `0` fallback never fires. -/
theorem prevalence_lookup_counterexample :
    denCount [Obs.mk 1 70 0] 70 0 = 0 ∧
    prevalenceAt [Obs.mk 1 70 0] 0 70 71 70 = Except.ok none ∧
    (Except.ok (none : Option ℚ) : Except Unit (Option ℚ)) ≠ Except.ok (some 0) := by
  refine ⟨by decide, ?_, by simp⟩
  rw [prevalenceAt_in_range _ _ _ _ _ (by omega) (by omega)]
  rw [lookupPrevalence, if_pos (by exact Or.inl (by decide)),
    if_pos (by exact Or.inl (by decide)), pivotRatio, if_neg]
  intro h
  exact absurd h.2.2 (by decide)

end PrevalenceTable

section ClaimC9

/-- C9 (amended): `generate_prevalence_matrix` returns a
`(diff+1) × (diff+1)` matrix; with `p_j` the prevalence value of column `j`
(`p_diff = 0`), every entry of column `j` in the first `diff` rows is
`1 - p_j` and the last-row entry is `1 - p_j/2` — so with
`healthy_life_only` the reward on dying transitions is `1 - p_j/2`, not
`(1 - p_j)/2` — and the last-row entry is at least `1/2` **provided**
`p_j ≤ 1`; prevalence ratios above `1` (more disabled than non-disabled in
a cell) push it below `1/2`. -/
theorem generate_prevalence_matrix_entries {K : Type} [LinearOrderedField K]
    (d : ℕ) (pv : ℕ → K) (i j : Fin (d + 1)) :
    ((i : ℕ) < d →
      generatePrevalenceMatrix d pv i j = 1 - prevListVal d pv (j : ℕ)) ∧
    ((i : ℕ) = d →
      generatePrevalenceMatrix d pv i j = 1 - prevListVal d pv (j : ℕ) / 2) ∧
    ((i : ℕ) = d → prevListVal d pv (j : ℕ) ≤ 1 →
      1/2 ≤ generatePrevalenceMatrix d pv i j) := by
  refine ⟨?_, ?_, ?_⟩
  · intro hi
    rw [generatePrevalenceMatrix, Matrix.of_apply, if_neg (by omega)]
  · intro hi
    rw [generatePrevalenceMatrix, Matrix.of_apply, if_pos hi]
  · intro hi hle
    rw [generatePrevalenceMatrix, Matrix.of_apply, if_pos hi]
    linarith

/-- C9 witness: with `diff = 1` and prevalence value `1/2 ≤ 1`, the
dying-transition reward `1 - (1/2)/2 = 3/4` is at least `1/2`. -/
theorem generate_prevalence_matrix_entries_witness :
    (1 : ℚ)/2 ≤ generatePrevalenceMatrix 1 (fun _ => (1 : ℚ)/2)
      (⟨1, by omega⟩ : Fin 2) (⟨0, by omega⟩ : Fin 2) :=
  (generate_prevalence_matrix_entries 1 (fun _ => (1 : ℚ)/2)
      ⟨1, by omega⟩ ⟨0, by omega⟩).2.2 rfl (by norm_num [prevListVal])

/-- C9 counterexample: a cell with 3 disabled and 1 non-disabled
observations has prevalence ratio `3`; the corresponding dying-transition
reward is `1 - 3/2 = -1/2 < 1/2`, refuting the claim that the last-row
entry is at least `1/2` for every column. -/
theorem generate_prevalence_matrix_entries_counterexample :
    pivotRatio [Obs.mk 1 70 0, Obs.mk 1 70 0, Obs.mk 1 70 0, Obs.mk 0 70 0] 70 0
        = some 3 ∧
    ¬ ((1 : ℚ)/2 ≤ generatePrevalenceMatrix 1 (fun _ => (3 : ℚ))
        (⟨1, by omega⟩ : Fin 2) (⟨0, by omega⟩ : Fin 2)) := by
  constructor
  · have h1 : numCount [Obs.mk 1 70 0, Obs.mk 1 70 0, Obs.mk 1 70 0, Obs.mk 0 70 0] 70 0
        = 3 := by decide
    have h2 : denCount [Obs.mk 1 70 0, Obs.mk 1 70 0, Obs.mk 1 70 0, Obs.mk 0 70 0] 70 0
        = 1 := by decide
    rw [pivotRatio, if_pos ⟨by decide, by decide, by decide⟩, h1, h2]
    norm_num
  · rw [generatePrevalenceMatrix, Matrix.of_apply, if_pos rfl]
    norm_num [prevListVal]

end ClaimC9

section ClaimC10

/-- Column access on a dataframe (association list of named columns). -/
def getCol : List (String × List ℚ) → String → Option (List ℚ)
  | [], _ => none
  | (c, v) :: rest, name => if c = name then some v else getCol rest name

/-- In-place column assignment `df.loc[:, name] = v`: overwrite the column
if present, append it otherwise. -/
def setCol : List (String × List ℚ) → String → List ℚ → List (String × List ℚ)
  | [], name, v => [(name, v)]
  | (c, w) :: rest, name, v =>
    if c = name then (c, v) :: rest else (c, w) :: setCol rest name v

/-- The effect of `LongevityEstimator.__init__` on the caller's dataframes:
the only mutating statement is
`self.panel_df.loc[:, 'age_2'] = self.panel_df.age ** 2` (all other
statements — prevalence table, min/max ages, unique income deciles,
classifier construction — only read).  Returns the post-state of
`(df, panel_df)`. -/
def estimatorInitFrames (df panel : List (String × List ℚ)) :
    List (String × List ℚ) × List (String × List ℚ) :=
  (df, setCol panel "age_2" (((getCol panel "age").getD []).map fun x => x * x))

theorem getCol_setCol_self (l : List (String × List ℚ)) (n : String) (v : List ℚ) :
    getCol (setCol l n v) n = some v := by
  induction l with
  | nil => simp [setCol, getCol]
  | cons h t ih =>
    obtain ⟨c, w⟩ := h
    by_cases hc : c = n
    · simp [setCol, hc, getCol]
    · simp [setCol, hc, getCol, ih]

theorem getCol_setCol_ne (l : List (String × List ℚ)) (n m : String) (v : List ℚ)
    (hnm : m ≠ n) : getCol (setCol l n v) m = getCol l m := by
  have hnm' : n ≠ m := Ne.symm hnm
  induction l with
  | nil => simp [setCol, getCol, hnm']
  | cons h t ih =>
    obtain ⟨c, w⟩ := h
    by_cases hc : c = n
    · subst hc
      simp [setCol, getCol, hnm']
    · by_cases hcm : c = m
      · simp [setCol, hc, getCol, hcm, hnm]
      · simp [setCol, hc, getCol, hcm, ih]

/-- C10 (confirmed): constructing a `LongevityEstimator` mutates the
caller's `panel_df` in place, adding (or overwriting) a column `age_2`
equal to the elementwise square of the `age` column, while leaving every
other column of `panel_df` and the whole observation dataframe `df`
unchanged. -/
theorem estimator_init_frame_effect (df panel : List (String × List ℚ)) :
    (estimatorInitFrames df panel).1 = df ∧
    getCol (estimatorInitFrames df panel).2 "age_2"
      = some (((getCol panel "age").getD []).map fun x => x * x) ∧
    ∀ c, c ≠ "age_2" → getCol (estimatorInitFrames df panel).2 c = getCol panel c :=
  ⟨rfl, getCol_setCol_self panel "age_2" _,
    fun c hc => getCol_setCol_ne panel "age_2" c _ hc⟩

/-- C10 witness: on a concrete panel with an `age` column and another
column `y`, the `y` column is untouched by `__init__`. -/
theorem estimator_init_frame_effect_witness :
    getCol (estimatorInitFrames [] [("age", [2, 3]), ("y", [5])]).2 "y" = some [5] :=
  ((estimator_init_frame_effect [] [("age", [2, 3]), ("y", [5])]).2.2 "y"
    (by decide)).trans rfl

end ClaimC10

section ClaimC5

/-- The helper `sigmoid(x) = 1 / (1 + np.exp(-x))`. -/
noncomputable def sigmoid (x : ℝ) : ℝ := 1 / (1 + Real.exp (-x))

/-- The `Provided`-coefficients mortality model of `compute_UP`:
`p_dead = sigmoid(c_age * age + c_income * income_dcl + c_gender * gender)`. -/
noncomputable def providedPdead (cAge cDcl cG dcl g : ℝ) : ℕ → ℝ :=
  fun age => sigmoid (cAge * age + cDcl * dcl + cG * g)

theorem sigmoid_zero : sigmoid 0 = 1/2 := by
  rw [sigmoid, neg_zero, Real.exp_zero]
  norm_num

theorem providedPdead_zero (dcl g : ℝ) :
    providedPdead 0 0 0 dcl g = fun _ => (1 : ℝ)/2 := by
  funext age
  rw [providedPdead]
  simp only [zero_mul, add_zero, zero_add]
  exact sigmoid_zero

theorem computeLifetime_mean_apply (s e : ℕ) (pd pv : ℕ → ℝ) (i : Fin (e - s)) :
    (computeLifetimeEstimates s e pd pv false).1 i
      = ((((1 - Umat s e pd)⁻¹)ᵀ * matZ (K := ℝ) (e - s)
          * (Matrix.hadamard (Pmat s e pd) (rewardTotal (K := ℝ) (e - s)))ᵀ
          * onesCol (K := ℝ) (e - s) : Matrix (Fin (e - s)) (Fin 1) ℝ)) i 0 := rfl

/-- Per-column sums of `P ∘ R` (total-life rewards, constant mortality
`p_dead = 1/2`, canonical age range ending at 91): every transient column
contributes `1/2 · 1 + 1/2 · 1/2 = 3/4`, the absorbing column `0`. -/
theorem hadamard_colsum_half (s : ℕ) (hs : s < 91) (j : Fin (91 - s + 1)) :
    (((Matrix.hadamard (Pmat s 91 (fun _ => (1 : ℝ)/2)) (rewardTotal (K := ℝ) (91 - s)))ᵀ
        * onesCol (K := ℝ) (91 - s) : Matrix (Fin (91 - s + 1)) (Fin 1) ℝ)) j 0
      = if (j : ℕ) < 91 - s then 3/4 else 0 := by
  have hd : 1 ≤ 91 - s := by omega
  have hjlt : (j : ℕ) < 91 - s + 1 := j.isLt
  rw [Matrix.mul_apply]
  have hterm : ∀ i : Fin (91 - s + 1),
      (Matrix.hadamard (Pmat s 91 (fun _ => (1 : ℝ)/2)) (rewardTotal (K := ℝ) (91 - s)))ᵀ j i
          * onesCol (K := ℝ) (91 - s) i 0
        = Pmat s 91 (fun _ => (1 : ℝ)/2) i j * rewardTotal (91 - s) i j := by
    intro i
    rw [Matrix.transpose_apply, Matrix.hadamard_apply, onesCol, Matrix.of_apply, mul_one]
  rw [Finset.sum_congr rfl fun i _ => hterm i]
  rcases (by omega : (j : ℕ) < 91 - s - 1 ∨ (j : ℕ) = 91 - s - 1 ∨ (j : ℕ) = 91 - s)
    with hj | hj | hj
  · have hcol : ∀ i : Fin (91 - s + 1),
        Pmat s 91 (fun _ => (1 : ℝ)/2) i j * rewardTotal (91 - s) i j
          = (if (i : ℕ) = 91 - s then (1 : ℝ)/4
             else if (i : ℕ) = (j : ℕ) + 1 then 1/2 else 0) := by
      intro i
      rw [Pmat, Matrix.of_apply, computePfun_canonical s _ hs, rewardTotal, Matrix.of_apply]
      split_ifs <;> first | omega | norm_num
    rw [Finset.sum_congr rfl fun i _ => hcol i,
      sum_ite_val_two (91 - s) ((j : ℕ) + 1) (by omega) (by omega) (by omega)]
    rw [if_pos (by omega : (j : ℕ) < 91 - s)]
    norm_num
  · have hcol : ∀ i : Fin (91 - s + 1),
        Pmat s 91 (fun _ => (1 : ℝ)/2) i j * rewardTotal (91 - s) i j
          = (if (i : ℕ) = 91 - s then (1 : ℝ)/4
             else if (i : ℕ) = 91 - s - 1 then 1/2 else 0) := by
      intro i
      rw [Pmat, Matrix.of_apply, computePfun_canonical s _ hs, rewardTotal, Matrix.of_apply]
      split_ifs <;> first | omega | norm_num
    rw [Finset.sum_congr rfl fun i _ => hcol i,
      sum_ite_val_two (91 - s) (91 - s - 1) (by omega) (by omega) (by omega)]
    rw [if_pos (by omega : (j : ℕ) < 91 - s)]
    norm_num
  · have hcol : ∀ i : Fin (91 - s + 1),
        Pmat s 91 (fun _ => (1 : ℝ)/2) i j * rewardTotal (91 - s) i j = 0 := by
      intro i
      rw [Pmat, Matrix.of_apply, computePfun_canonical s _ hs, rewardTotal, Matrix.of_apply]
      split_ifs <;> first | omega | norm_num
    rw [Finset.sum_congr rfl fun i _ => hcol i, Finset.sum_const_zero,
      if_neg (by omega : ¬ (j : ℕ) < 91 - s)]

theorem one_entry_val {K : Type} [Field K] {n : ℕ} (a b : Fin n) :
    (1 : Matrix (Fin n) (Fin n) K) a b = if (a : ℕ) = (b : ℕ) then 1 else 0 := by
  by_cases h : a = b
  · subst h
    rw [Matrix.one_apply_eq, if_pos rfl]
  · rw [Matrix.one_apply_ne h, if_neg (fun hv => h (Fin.ext hv))]

theorem Umat_col_last (s : ℕ) (hs : s < 91) (a jl : Fin (91 - s))
    (hjl : (jl : ℕ) = 91 - s - 1) :
    Umat s 91 (fun _ => (1 : ℝ)/2) a jl
      = if (a : ℕ) = 91 - s - 1 then 1/2 else 0 := by
  rw [Umat_canonical_apply s _ hs]
  split_ifs <;> first | omega | norm_num

/-- The identity `(I - U) · w = e` where `w` is twice, and `e` once, the indicator column
of the last transient state (constant mortality `1/2`, canonical range). -/
theorem one_sub_U_mul_w (s : ℕ) (hs : s < 91) (jl : Fin (91 - s))
    (hjl : (jl : ℕ) = 91 - s - 1) (a : Fin (91 - s)) (b : Fin 1) :
    (((1 - Umat s 91 (fun _ => (1 : ℝ)/2))
        * (Matrix.of fun (i : Fin (91 - s)) (_ : Fin 1) =>
            if (i : ℕ) = 91 - s - 1 then (2 : ℝ) else 0)
      : Matrix (Fin (91 - s)) (Fin 1) ℝ)) a b
      = if (a : ℕ) = 91 - s - 1 then 1 else 0 := by
  rw [Matrix.mul_apply]
  have h0 : ∀ c ∈ Finset.univ, c ≠ jl →
      (1 - Umat s 91 (fun _ => (1 : ℝ)/2)) a c
          * (Matrix.of fun (i : Fin (91 - s)) (_ : Fin 1) =>
              if (i : ℕ) = 91 - s - 1 then (2 : ℝ) else 0) c b = 0 := by
    intro c _ hc
    have hcv : ¬ (c : ℕ) = 91 - s - 1 := fun hv => hc (Fin.ext (hv.trans hjl.symm))
    rw [Matrix.of_apply, if_neg hcv, mul_zero]
  rw [Finset.sum_eq_single jl h0 (fun h => absurd (Finset.mem_univ jl) h),
    Matrix.of_apply, if_pos hjl, Matrix.sub_apply, one_entry_val,
    Umat_col_last s hs a jl hjl, hjl]
  split_ifs <;> norm_num

/-- The last column of the fundamental matrix `N = (I - U)⁻¹` for constant
mortality `1/2` on the canonical range: the only state reachable from the
final age is itself, visited `1/(1 - 1/2) = 2` expected times. -/
theorem Ninv_col_last (s : ℕ) (hs : s < 91) (jl : Fin (91 - s))
    (hjl : (jl : ℕ) = 91 - s - 1) (i : Fin (91 - s)) :
    (1 - Umat s 91 (fun _ => (1 : ℝ)/2))⁻¹ i jl
      = if (i : ℕ) = 91 - s - 1 then 2 else 0 := by
  have hdet : IsUnit (1 - Umat s 91 (fun _ => (1 : ℝ)/2)).det := by
    rw [det_one_sub_Umat_canonical s _ hs]
    norm_num
  have hAw : (1 - Umat s 91 (fun _ => (1 : ℝ)/2))
        * (Matrix.of fun (i : Fin (91 - s)) (_ : Fin 1) =>
            if (i : ℕ) = 91 - s - 1 then (2 : ℝ) else 0)
      = Matrix.of fun (i : Fin (91 - s)) (_ : Fin 1) =>
          if (i : ℕ) = 91 - s - 1 then (1 : ℝ) else 0 := by
    ext a b
    rw [one_sub_U_mul_w s hs jl hjl a b, Matrix.of_apply]
  have hN : (1 - Umat s 91 (fun _ => (1 : ℝ)/2))⁻¹
        * (Matrix.of fun (i : Fin (91 - s)) (_ : Fin 1) =>
            if (i : ℕ) = 91 - s - 1 then (1 : ℝ) else 0)
      = Matrix.of fun (i : Fin (91 - s)) (_ : Fin 1) =>
          if (i : ℕ) = 91 - s - 1 then (2 : ℝ) else 0 := by
    rw [← hAw, ← Matrix.mul_assoc, Matrix.nonsing_inv_mul _ hdet, Matrix.one_mul]
  have hentry : (((1 - Umat s 91 (fun _ => (1 : ℝ)/2))⁻¹
        * (Matrix.of fun (i : Fin (91 - s)) (_ : Fin 1) =>
            if (i : ℕ) = 91 - s - 1 then (1 : ℝ) else 0)
      : Matrix (Fin (91 - s)) (Fin 1) ℝ)) i 0
      = (1 - Umat s 91 (fun _ => (1 : ℝ)/2))⁻¹ i jl := by
    rw [Matrix.mul_apply]
    have h0 : ∀ c ∈ Finset.univ, c ≠ jl →
        (1 - Umat s 91 (fun _ => (1 : ℝ)/2))⁻¹ i c
            * (Matrix.of fun (k : Fin (91 - s)) (_ : Fin 1) =>
                if (k : ℕ) = 91 - s - 1 then (1 : ℝ) else 0) c 0 = 0 := by
      intro c _ hc
      have hcv : ¬ (c : ℕ) = 91 - s - 1 := fun hv => hc (Fin.ext (hv.trans hjl.symm))
      rw [Matrix.of_apply, if_neg hcv, mul_zero]
    rw [Finset.sum_eq_single jl h0 (fun h => absurd (Finset.mem_univ jl) h),
      Matrix.of_apply, if_pos hjl, mul_one]
  rw [← hentry, hN, Matrix.of_apply]

theorem Z_mul_colsum (s : ℕ) (hs : s < 91) (c : Fin (91 - s))
    (jc : Fin (91 - s + 1)) (hjc : (jc : ℕ) = (c : ℕ)) :
    ((matZ (K := ℝ) (91 - s)
        * ((Matrix.hadamard (Pmat s 91 (fun _ => (1 : ℝ)/2)) (rewardTotal (K := ℝ) (91 - s)))ᵀ
            * onesCol (K := ℝ) (91 - s)) : Matrix (Fin (91 - s)) (Fin 1) ℝ)) c 0
      = 3/4 := by
  rw [Matrix.mul_apply]
  have h0 : ∀ b ∈ Finset.univ, b ≠ jc →
      matZ (K := ℝ) (91 - s) c b
          * (((Matrix.hadamard (Pmat s 91 (fun _ => (1 : ℝ)/2)) (rewardTotal (K := ℝ) (91 - s)))ᵀ
              * onesCol (K := ℝ) (91 - s) : Matrix (Fin (91 - s + 1)) (Fin 1) ℝ)) b 0 = 0 := by
    intro b _ hb
    have hbv : ¬ (b : ℕ) = (c : ℕ) := fun hv => hb (Fin.ext (hv.trans hjc.symm))
    rw [matZ, Matrix.of_apply, if_neg hbv, zero_mul]
  rw [Finset.sum_eq_single jc h0 (fun h => absurd (Finset.mem_univ _) h),
    matZ, Matrix.of_apply, if_pos hjc, one_mul, hadamard_colsum_half s hs jc,
    if_pos (by omega : (jc : ℕ) < 91 - s)]

/-- The mean vector of `compute_lifetime_estimates(healthy_life_only=False)`
for the constant mortality model `p_dead = 1/2` on the canonical range:
at the oldest modeled age the value is `2 · (1/2 · 1 + 1/2 · 1/2) = 3/2`. -/
theorem mean_const_half (s : ℕ) (pv : ℕ → ℝ) (hs : s < 91) :
    (computeLifetimeEstimates s 91 (fun _ => (1 : ℝ)/2) pv false).1
      ⟨91 - s - 1, by omega⟩ = 3/2 := by
  rw [computeLifetime_mean_apply, Matrix.mul_assoc, Matrix.mul_assoc, Matrix.mul_apply]
  have hterm : ∀ c : Fin (91 - s),
      ((1 - Umat s 91 (fun _ => (1 : ℝ)/2))⁻¹)ᵀ ⟨91 - s - 1, by omega⟩ c
          * ((matZ (K := ℝ) (91 - s)
              * ((Matrix.hadamard (Pmat s 91 (fun _ => (1 : ℝ)/2))
                  (rewardTotal (K := ℝ) (91 - s)))ᵀ
                  * onesCol (K := ℝ) (91 - s)))) c 0
        = (if (c : ℕ) = 91 - s - 1 then (3 : ℝ)/2 else 0) := by
    intro c
    rw [Matrix.transpose_apply, Ninv_col_last s hs ⟨91 - s - 1, by omega⟩ rfl c,
      Z_mul_colsum s hs c ⟨(c : ℕ), by omega⟩ rfl]
    split_ifs <;> norm_num
  rw [Finset.sum_congr rfl fun c _ => hterm c, sum_ite_val_one (91 - s - 1) (by omega)]

/-- C5 (amended): with a `Provided` coefficient set whose three coefficients
are all zero, `p_dead = sigmoid(0) = 1/2` exactly for every modeled age;
and for any canonical age range (`end_age = 91`), the mean vector of
`compute_lifetime_estimates(healthy_life_only=False)` at the oldest modeled
age equals `3/2` — the self-looping top age is visited `2` expected times,
each visit is rewarded `1/2 · 1 + 1/2 · 1/2 = 3/4` — not `1/2`. -/
theorem zero_coeffs_estimates (s : ℕ) (dcl g : ℝ) (pv : ℕ → ℝ) (hs : s < 91) :
    (∀ age : ℕ, providedPdead 0 0 0 dcl g age = 1/2) ∧
    (computeLifetimeEstimates s 91 (providedPdead 0 0 0 dcl g) pv false).1
      ⟨91 - s - 1, by omega⟩ = 3/2 := by
  have hpd : providedPdead 0 0 0 dcl g = fun _ => (1 : ℝ)/2 := providedPdead_zero dcl g
  constructor
  · intro age
    rw [hpd]
  · rw [hpd]
    exact mean_const_half s pv hs

/-- C5 witness: the concrete instance `start_age = 89`, `end_age = 91`,
all-zero coefficients. -/
theorem zero_coeffs_estimates_witness :
    (computeLifetimeEstimates 89 91 (providedPdead 0 0 0 0 0) (fun _ => 0) false).1
      ⟨91 - 89 - 1, by omega⟩ = 3/2 :=
  (zero_coeffs_estimates 89 0 0 (fun _ => 0) (by omega)).2

/-- C5 counterexample: with all-zero coefficients over ages `89..90`, the
mean at the oldest modeled age is `3/2`, not the `1/2` the claim states. -/
theorem zero_coeffs_estimates_counterexample :
    (computeLifetimeEstimates 89 91 (providedPdead 0 0 0 0 0) (fun _ => 0) false).1
      ⟨91 - 89 - 1, by omega⟩ = 3/2 ∧ (3 : ℝ)/2 ≠ 1/2 := by
  constructor
  · rw [providedPdead_zero 0 0]
    exact mean_const_half 89 (fun _ => 0) (by omega)
  · norm_num

end ClaimC5

section Inequality

variable {K : Type} [LinearOrderedField K]

/-- The sum `np.sum((2 * index - n - 1) * y)` unrolled: the running index `k`
starts at `0` and the numpy `index` is `k + 1`. -/
def giniWSum (n : ℕ) : ℕ → List K → K
  | _, [] => 0
  | k, v :: rest => (2 * ((k : K) + 1) - (n : K) - 1) * v + giniWSum n (k + 1) rest

/-- The static method `LongevityEstimator.gini`: flatten (inputs here are already 1-d), shift
when the minimum is negative, add `1e-7` to every element, sort ascending,
and return `Σ (2·index - n - 1)·y / (n · Σ y)`. -/
def gini (y : List K) : K :=
  let m := (y.minimum).untop' 0
  let y1 := if m < 0 then y.map (fun v => v - m) else y
  let y2 := y1.map (fun v => v + 1/10000000)
  let y3 := y2.insertionSort (· ≤ ·)
  giniWSum y3.length 0 y3 / ((y3.length : K) * y3.sum)

/-- The static method `LongevityEstimator.theil`: replace exact zeros by `1e-8`, form shares
`s = y / y.sum()`, and return `Σ s · ln(n · s)` (`n` the original length). -/
noncomputable def theil (y : List ℝ) : ℝ :=
  let n := y.length
  let y1 := y.map (fun v => v + 1/100000000 * (if v = 0 then 1 else 0))
  let s := y1.map (fun v => v / y1.sum)
  (s.map (fun x => x * Real.log (n * x))).sum

theorem giniWSum_ofFn (N : ℕ) : ∀ (k : ℕ) {n : ℕ} (g : Fin n → K),
    giniWSum N k (List.ofFn g)
      = ∑ i : Fin n, (2 * ((k : K) + (i : K) + 1) - (N : K) - 1) * g i := by
  intro k n
  induction n generalizing k with
  | zero => intro g; simp [giniWSum]
  | succ n ih =>
    intro g
    rw [List.ofFn_succ, giniWSum, ih (k + 1), Fin.sum_univ_succ]
    have h0 : (2 * ((k : K) + ((0 : Fin (n + 1)) : ℕ) + 1) - (N : K) - 1) * g 0
        = (2 * ((k : K) + 1) - (N : K) - 1) * g 0 := by
      norm_num
    rw [h0]
    congr 1
    refine Finset.sum_congr rfl fun i _ => ?_
    have hc : ((k + 1 : ℕ) : K) + (i : K) = (k : K) + ((i.succ : Fin (n + 1)) : ℕ) + 0 := by
      push_cast [Fin.val_succ]
      ring
    congr 2
    push_cast [Fin.val_succ]
    ring

theorem sorted_ofFn_of_monotone {n : ℕ} (f : Fin n → K) (hf : Monotone f) :
    (List.ofFn f).Sorted (· ≤ ·) :=
  List.pairwise_ofFn.mpr fun _ _ hij => hf (le_of_lt hij)

theorem min_nonneg_of_nonneg {n : ℕ} (f : Fin n → K) (hpos : ∀ i, 0 ≤ f i) :
    ¬ ((List.ofFn f).minimum).untop' 0 < 0 := by
  intro hcon
  rcases hmin : (List.ofFn f).minimum with _ | m
  · rw [hmin] at hcon
    exact absurd (show (0 : K) < 0 from hcon) (lt_irrefl 0)
  · rw [hmin] at hcon
    have hm : m ∈ List.ofFn f := List.minimum_mem hmin
    obtain ⟨i, hi⟩ := (List.mem_ofFn _ _).mp hm
    have h0 : (0 : K) ≤ m := hi ▸ hpos i
    exact absurd (show m < 0 from hcon) (not_lt.mpr h0)

/-- Characterization of `gini` on a nonnegative monotone tuple: the
negative-shift branch is skipped and the sort is the identity. -/
theorem gini_ofFn_eq {n : ℕ} (f : Fin n → K) (hf : Monotone f) (hpos : ∀ i, 0 ≤ f i) :
    gini (List.ofFn f)
      = (∑ i : Fin n, (2 * ((i : K) + 1) - (n : K) - 1) * (f i + 1/10000000))
        / ((n : K) * ∑ i : Fin n, (f i + 1/10000000)) := by
  rw [gini]
  simp only [if_neg (min_nonneg_of_nonneg f hpos)]
  have hmap : (List.ofFn f).map (fun v => v + 1/10000000)
      = List.ofFn (fun i => f i + 1/10000000) := List.map_ofFn f _
  rw [hmap]
  have hsorted : (List.ofFn (fun i => f i + 1/10000000)).Sorted (· ≤ ·) :=
    sorted_ofFn_of_monotone _ (fun a b hab => by
      show f a + 1/10000000 ≤ f b + 1/10000000
      have := hf hab
      linarith)
  rw [List.Sorted.insertionSort_eq hsorted, List.length_ofFn, List.sum_ofFn,
    giniWSum_ofFn n 0]
  congr 1
  refine Finset.sum_congr rfl fun i _ => ?_
  norm_num

/-- Characterization of `theil` on a strictly positive tuple: the
zero-replacement is the identity. -/
theorem theil_ofFn_eq {n : ℕ} (f : Fin n → ℝ) (hpos : ∀ i, 0 < f i) :
    theil (List.ofFn f)
      = ∑ i : Fin n, (f i / ∑ j, f j) * Real.log ((n : ℝ) * (f i / ∑ j, f j)) := by
  rw [theil]
  have hmap1 : (List.ofFn f).map (fun v => v + 1/100000000 * (if v = 0 then 1 else 0))
      = List.ofFn f := by
    rw [List.map_ofFn]
    refine congrArg List.ofFn (funext fun i => ?_)
    have : ¬ f i = 0 := ne_of_gt (hpos i)
    simp [Function.comp, this]
  rw [hmap1, List.map_ofFn, List.map_ofFn, List.sum_ofFn, List.length_ofFn, List.sum_ofFn]
  exact Finset.sum_congr rfl fun i _ => rfl

theorem sum_transfer {n : ℕ} (f : Fin n → K) (p q : Fin n) (hpq : p ≠ q) (δ : K) :
    (∑ i : Fin n, (if i = p then f p + δ else if i = q then f q - δ else f i))
      = ∑ i : Fin n, f i := by
  have hpt : ∀ i : Fin n, (if i = p then f p + δ else if i = q then f q - δ else f i)
      = f i + (if i = p then δ else if i = q then -δ else 0) := by
    intro i
    by_cases h1 : i = p
    · subst h1
      rw [if_pos rfl, if_pos rfl]
    · by_cases h2 : i = q
      · subst h2
        rw [if_neg h1, if_neg h1, if_pos rfl, if_pos rfl]
        ring
      · rw [if_neg h1, if_neg h2, if_neg h1, if_neg h2, add_zero]
  rw [Finset.sum_congr rfl fun i _ => hpt i, Finset.sum_add_distrib,
    sum_ite_two p q hpq δ (-δ)]
  ring

/-- Two-point majorization inequality for a convex function on `[0, ∞)`:
pulling `a` and `b` closer together by `δ` does not increase `F a + F b`. -/
theorem convex_two_point {F : ℝ → ℝ} (hF : ConvexOn ℝ (Set.Ici 0) F)
    (a b δ : ℝ) (ha : 0 ≤ a) (hδ : 0 ≤ δ) (hab : a + δ ≤ b - δ) :
    F (a + δ) + F (b - δ) ≤ F a + F b := by
  have hb : (0 : ℝ) ≤ b := by linarith
  rcases eq_or_lt_of_le (show a ≤ b by linarith) with heq | hlt
  · have hδ0 : δ = 0 := by
      have hle : δ ≤ 0 := by
        rw [← heq] at hab
        linarith
      linarith
    rw [hδ0, add_zero, sub_zero]
  · have hba : 0 < b - a := sub_pos.mpr hlt
    have ht0 : 0 ≤ δ / (b - a) := div_nonneg hδ hba.le
    have ht1 : δ / (b - a) ≤ 1 := by
      rw [div_le_one hba]
      linarith
    have h1 := hF.2 (Set.mem_Ici.mpr ha) (Set.mem_Ici.mpr hb)
      (show (0 : ℝ) ≤ 1 - δ / (b - a) by linarith) ht0 (by ring)
    have h2 := hF.2 (Set.mem_Ici.mpr ha) (Set.mem_Ici.mpr hb)
      ht0 (show (0 : ℝ) ≤ 1 - δ / (b - a) by linarith) (by ring)
    have he1 : (1 - δ / (b - a)) • a + (δ / (b - a)) • b = a + δ := by
      rw [smul_eq_mul, smul_eq_mul]
      field_simp
      ring
    have he2 : (δ / (b - a)) • a + (1 - δ / (b - a)) • b = b - δ := by
      rw [smul_eq_mul, smul_eq_mul]
      field_simp
      ring
    rw [he1, smul_eq_mul, smul_eq_mul] at h1
    rw [he2, smul_eq_mul, smul_eq_mul] at h2
    calc F (a + δ) + F (b - δ)
        ≤ ((1 - δ/(b-a)) * F a + (δ/(b-a)) * F b)
            + ((δ/(b-a)) * F a + (1 - δ/(b-a)) * F b) := add_le_add h1 h2
      _ = F a + F b := by ring

/-- A Pigou–Dalton transfer on an already sorted (ascending) nonnegative
vector, keeping it sorted, never increases `gini`: the shift `1e-7` cancels
from the weighted numerator, the denominator is unchanged and positive, and
the numerator moves by `2·(p - q)·δ ≤ 0`. -/
theorem gini_transfer_sorted_le {n : ℕ} (f f' : Fin n → ℝ) (p q : Fin n) (δ : ℝ)
    (hmono : Monotone f) (hnonneg : ∀ i, 0 ≤ f i) (hmono' : Monotone f')
    (hpq : p < q) (hδ : 0 ≤ δ)
    (hf' : f' = fun i => if i = p then f p + δ else if i = q then f q - δ else f i) :
    gini (List.ofFn f') ≤ gini (List.ofFn f) := by
  have hn : 0 < n := p.pos
  have hpq' : p ≠ q := ne_of_lt hpq
  have hple : p ≤ q := le_of_lt hpq
  have hf'i : ∀ i, f' i = if i = p then f p + δ else if i = q then f q - δ else f i := by
    intro i
    rw [hf']
  have hf'p : f' p = f p + δ := by
    rw [hf'i p, if_pos rfl]
  have hf'q : f' q = f q - δ := by
    rw [hf'i q, if_neg (Ne.symm hpq'), if_pos rfl]
  have hle2 : f p + δ ≤ f q - δ := by
    have := hmono' hple
    rw [hf'p, hf'q] at this
    exact this
  have hnn' : ∀ i, 0 ≤ f' i := by
    intro i
    rw [hf'i i]
    by_cases h1 : i = p
    · rw [if_pos h1]
      have := hnonneg p
      linarith
    · by_cases h2 : i = q
      · rw [if_neg h1, if_pos h2]
        have := hnonneg p
        linarith
      · rw [if_neg h1, if_neg h2]
        exact hnonneg i
  have hf'sum : ∑ i, f' i = ∑ i, f i := by
    rw [Finset.sum_congr rfl fun i _ => hf'i i, sum_transfer f p q hpq' δ]
  rw [gini_ofFn_eq f hmono hnonneg, gini_ofFn_eq f' hmono' hnn']
  have hsum : ∑ i, (f' i + 1/10000000) = ∑ i, (f i + 1/10000000) := by
    rw [Finset.sum_add_distrib, Finset.sum_add_distrib, hf'sum]
  rw [hsum]
  have hden : 0 < (n : ℝ) * ∑ i, (f i + 1/10000000) := by
    apply mul_pos
    · exact_mod_cast hn
    · apply Finset.sum_pos
      · intro i _
        have := hnonneg i
        have hc : (0 : ℝ) < 1/10000000 := by norm_num
        linarith
      · exact ⟨p, Finset.mem_univ p⟩
  rw [div_le_div_iff_of_pos_right hden]
  have hpt : ∀ i : Fin n, (2 * ((i : ℝ) + 1) - (n : ℝ) - 1) * (f' i + 1/10000000)
      = (2 * ((i : ℝ) + 1) - (n : ℝ) - 1) * (f i + 1/10000000)
        + (if i = p then (2 * ((p : ℝ) + 1) - (n : ℝ) - 1) * δ
           else if i = q then -((2 * ((q : ℝ) + 1) - (n : ℝ) - 1) * δ) else 0) := by
    intro i
    rw [hf'i i]
    by_cases h1 : i = p
    · subst h1
      rw [if_pos rfl, if_pos rfl]
      ring
    · by_cases h2 : i = q
      · subst h2
        rw [if_neg h1, if_pos rfl, if_neg h1, if_pos rfl]
        ring
      · rw [if_neg h1, if_neg h2, if_neg h1, if_neg h2]
        ring
  rw [Finset.sum_congr rfl fun i _ => hpt i, Finset.sum_add_distrib,
    sum_ite_two p q hpq' _ _]
  have hpqK : (p : ℝ) < (q : ℝ) := by
    have hv : (p : ℕ) < (q : ℕ) := hpq
    exact_mod_cast hv
  have hmove : (2 * ((p : ℝ) + 1) - (n : ℝ) - 1) * δ
      + -((2 * ((q : ℝ) + 1) - (n : ℝ) - 1) * δ) ≤ 0 := by
    nlinarith
  linarith

/-- A Pigou–Dalton transfer on a strictly positive vector never increases
`theil`, with no ordering assumption at all: `theil` is a sum over the
entries, the total is preserved, and the two moved terms obey the two-point
convexity inequality for `x ↦ x·log x`. -/
theorem theil_transfer_le {n : ℕ} (f f' : Fin n → ℝ) (p q : Fin n) (δ : ℝ)
    (hpos : ∀ i, 0 < f i) (hpq' : p ≠ q) (hδ : 0 ≤ δ)
    (hf'i : ∀ i, f' i = if i = p then f p + δ else if i = q then f q - δ else f i)
    (hle2 : f p + δ ≤ f q - δ) :
    theil (List.ofFn f') ≤ theil (List.ofFn f) := by
  have hn : 0 < n := p.pos
  have hf'sum : ∑ i, f' i = ∑ i, f i := by
    rw [Finset.sum_congr rfl fun i _ => hf'i i, sum_transfer f p q hpq' δ]
  have hpos' : ∀ i, 0 < f' i := by
    intro i
    rw [hf'i i]
    by_cases h1 : i = p
    · rw [if_pos h1]
      have := hpos p
      linarith
    · by_cases h2 : i = q
      · rw [if_neg h1, if_pos h2]
        have := hpos p
        linarith
      · rw [if_neg h1, if_neg h2]
        exact hpos i
  have hS : 0 < ∑ j, f j := Finset.sum_pos (fun i _ => hpos i) ⟨p, Finset.mem_univ p⟩
  rw [theil_ofFn_eq f hpos, theil_ofFn_eq f' hpos', hf'sum]
  have hn0 : (0 : ℝ) < (n : ℝ) := by exact_mod_cast hn
  have hfpδ : 0 < f p + δ := by
    have := hpos p
    linarith
  have hfqδ : 0 < f q - δ := lt_of_lt_of_le hfpδ hle2
  have hcne : (n : ℝ) / (∑ j, f j) ≠ 0 := ne_of_gt (div_pos hn0 hS)
  have hφ : ∀ x : ℝ, 0 < x →
      (x / ∑ j, f j) * Real.log ((n : ℝ) * (x / ∑ j, f j))
        = (x * Real.log x + x * Real.log ((n : ℝ) / ∑ j, f j)) / ∑ j, f j := by
    intro x hx
    have h1 : (n : ℝ) * (x / ∑ j, f j) = x * ((n : ℝ) / ∑ j, f j) := by ring
    rw [h1, Real.log_mul (ne_of_gt hx) hcne]
    field_simp
    ring
  have hconv := convex_two_point Real.convexOn_mul_log (f p) (f q) δ
    (le_of_lt (hpos p)) hδ hle2
  have key : (f p + δ) / (∑ j, f j) * Real.log ((n : ℝ) * ((f p + δ) / ∑ j, f j))
        + (f q - δ) / (∑ j, f j) * Real.log ((n : ℝ) * ((f q - δ) / ∑ j, f j))
      ≤ f p / (∑ j, f j) * Real.log ((n : ℝ) * (f p / ∑ j, f j))
        + f q / (∑ j, f j) * Real.log ((n : ℝ) * (f q / ∑ j, f j)) := by
    rw [hφ _ hfpδ, hφ _ hfqδ, hφ _ (hpos p), hφ _ (hpos q),
      div_add_div_same, div_add_div_same]
    rw [div_le_div_iff_of_pos_right hS]
    nlinarith [hconv]
  have hpt : ∀ i : Fin n,
      (f' i / ∑ j, f j) * Real.log ((n : ℝ) * (f' i / ∑ j, f j))
        = (f i / ∑ j, f j) * Real.log ((n : ℝ) * (f i / ∑ j, f j))
          + (if i = p then
              (f p + δ) / (∑ j, f j) * Real.log ((n : ℝ) * ((f p + δ) / ∑ j, f j))
                - f p / (∑ j, f j) * Real.log ((n : ℝ) * (f p / ∑ j, f j))
             else if i = q then
              (f q - δ) / (∑ j, f j) * Real.log ((n : ℝ) * ((f q - δ) / ∑ j, f j))
                - f q / (∑ j, f j) * Real.log ((n : ℝ) * (f q / ∑ j, f j))
             else 0) := by
    intro i
    rw [hf'i i]
    by_cases h1 : i = p
    · subst h1
      rw [if_pos rfl, if_pos rfl]
      ring
    · by_cases h2 : i = q
      · subst h2
        rw [if_neg h1, if_pos rfl, if_neg h1, if_pos rfl]
        ring
      · rw [if_neg h1, if_neg h2, if_neg h1, if_neg h2]
        ring
  rw [Finset.sum_congr rfl fun i _ => hpt i, Finset.sum_add_distrib,
    sum_ite_two p q hpq' _ _]
  linarith [key]

theorem minimum_perm {l l' : List K} (h : l.Perm l') : l.minimum = l'.minimum := by
  induction h with
  | nil => rfl
  | cons a _ ih => rw [List.minimum_cons, List.minimum_cons, ih]
  | swap a b l =>
    rw [List.minimum_cons, List.minimum_cons, List.minimum_cons, List.minimum_cons,
      ← min_assoc, ← min_assoc, min_comm ((b : WithTop K)) ((a : WithTop K))]
  | trans _ _ ih1 ih2 => rw [ih1, ih2]

/-- The embedded `gini` depends only on the multiset of values: the minimum,
the shift, the `1e-7` bump and the ascending sort are all invariant under a
permutation of the input. -/
theorem gini_perm {l l' : List K} (h : l.Perm l') : gini l = gini l' := by
  have hmin : l.minimum = l'.minimum := minimum_perm h
  have hbase : (if (l.minimum).untop' 0 < 0
        then l.map (fun v => v - (l.minimum).untop' 0) else l).Perm
      (if (l'.minimum).untop' 0 < 0
        then l'.map (fun v => v - (l'.minimum).untop' 0) else l') := by
    rw [hmin]
    by_cases hm : (l'.minimum).untop' 0 < 0
    · rw [if_pos hm, if_pos hm]
      exact h.map _
    · rw [if_neg hm, if_neg hm]
      exact h
  have hsorted : ((if (l.minimum).untop' 0 < 0
          then l.map (fun v => v - (l.minimum).untop' 0) else l).map
          (fun v => v + 1/10000000)).insertionSort (· ≤ ·)
      = ((if (l'.minimum).untop' 0 < 0
          then l'.map (fun v => v - (l'.minimum).untop' 0) else l').map
          (fun v => v + 1/10000000)).insertionSort (· ≤ ·) := by
    exact List.eq_of_perm_of_sorted
      ((List.perm_insertionSort _ _).trans
        ((hbase.map _).trans (List.perm_insertionSort _ _).symm))
      (List.sorted_insertionSort _ _) (List.sorted_insertionSort _ _)
  simp only [gini]
  rw [hsorted]

/-- C8 (amended): for an arbitrary nonnegative vector, a Pigou–Dalton
transfer of `δ ≥ 0` from a larger element (position `q`) to a smaller one
(position `p`) that is small enough not to reorder the vector — every weak
comparison `f i ≤ f j` still holds after the transfer — never increases
`gini`; on a strictly positive vector it also never increases `theil`.
(For nonnegative vectors with a zero entry `theil` can strictly increase —
see the counterexample — because the code imputes `1e-8` for exact zeros.) -/
theorem pigou_dalton_transfer {n : ℕ} (f f' : Fin n → ℝ) (p q : Fin n) (δ : ℝ)
    (hnonneg : ∀ i, 0 ≤ f i) (hpq : p ≠ q) (hδ : 0 ≤ δ) (hsmaller : f p ≤ f q)
    (hf' : f' = fun i => if i = p then f p + δ else if i = q then f q - δ else f i)
    (horder : ∀ i j, f i ≤ f j → f' i ≤ f' j) :
    gini (List.ofFn f') ≤ gini (List.ofFn f) ∧
    ((∀ i, 0 < f i) → theil (List.ofFn f') ≤ theil (List.ofFn f)) := by
  have hf'i : ∀ i, f' i = if i = p then f p + δ else if i = q then f q - δ else f i := by
    intro i
    rw [hf']
  have hf'p : f' p = f p + δ := by
    rw [hf'i p, if_pos rfl]
  have hf'q : f' q = f q - δ := by
    rw [hf'i q, if_neg (Ne.symm hpq), if_pos rfl]
  have hle2 : f p + δ ≤ f q - δ := by
    have h := horder p q hsmaller
    rw [hf'p, hf'q] at h
    exact h
  constructor
  · -- sort `f` by a permutation; the transfer is order-preserving, so the
    -- same permutation sorts `f'`, and `gini` is permutation-invariant.
    have hgmono : Monotone (f ∘ Tuple.sort f) := Tuple.monotone_sort f
    have hg'mono : Monotone (f' ∘ Tuple.sort f) :=
      fun a b hab => horder _ _ (hgmono hab)
    have hgnn : ∀ i, 0 ≤ (f ∘ Tuple.sort f) i := fun i => hnonneg (Tuple.sort f i)
    have hpq2 : (Tuple.sort f).symm p ≠ (Tuple.sort f).symm q :=
      fun hcon => hpq ((Tuple.sort f).symm.injective hcon)
    have hg'eq : (f' ∘ Tuple.sort f) = fun i =>
        if i = (Tuple.sort f).symm p
          then (f ∘ Tuple.sort f) ((Tuple.sort f).symm p) + δ
        else if i = (Tuple.sort f).symm q
          then (f ∘ Tuple.sort f) ((Tuple.sort f).symm q) - δ
        else (f ∘ Tuple.sort f) i := by
      funext i
      show f' (Tuple.sort f i) = _
      rw [hf'i (Tuple.sort f i)]
      simp only [Function.comp_apply, Equiv.apply_symm_apply]
      by_cases h1 : Tuple.sort f i = p
      · rw [if_pos h1, if_pos (show i = (Tuple.sort f).symm p by
          rw [← h1, Equiv.symm_apply_apply])]
      · rw [if_neg h1, if_neg (show ¬ i = (Tuple.sort f).symm p from
          fun hi => h1 (by rw [hi, Equiv.apply_symm_apply]))]
        by_cases h2 : Tuple.sort f i = q
        · rw [if_pos h2, if_pos (show i = (Tuple.sort f).symm q by
            rw [← h2, Equiv.symm_apply_apply])]
        · rw [if_neg h2, if_neg (show ¬ i = (Tuple.sort f).symm q from
            fun hi => h2 (by rw [hi, Equiv.apply_symm_apply]))]
    rcases lt_trichotomy ((Tuple.sort f).symm p) ((Tuple.sort f).symm q)
      with hlt | heq | hgt
    · have hsorted := gini_transfer_sorted_le (f ∘ Tuple.sort f) (f' ∘ Tuple.sort f)
        ((Tuple.sort f).symm p) ((Tuple.sort f).symm q) δ
        hgmono hgnn hg'mono hlt hδ hg'eq
      calc gini (List.ofFn f')
          = gini (List.ofFn (f' ∘ Tuple.sort f)) :=
            (gini_perm ((Tuple.sort f).ofFn_comp_perm f')).symm
        _ ≤ gini (List.ofFn (f ∘ Tuple.sort f)) := hsorted
        _ = gini (List.ofFn f) := gini_perm ((Tuple.sort f).ofFn_comp_perm f)
    · exact absurd heq hpq2
    · -- the sorted position of `q` precedes that of `p`: then `f q ≤ f p`,
      -- forcing `δ = 0` and `f' = f`.
      have hq_le : f q ≤ f p := by
        have h := hgmono (le_of_lt hgt)
        simpa [Function.comp, Equiv.apply_symm_apply] using h
      have hδ0 : δ = 0 := by linarith
      have hff : f' = f := by
        funext i
        rw [hf'i i, hδ0]
        by_cases h1 : i = p
        · rw [if_pos h1, h1, add_zero]
        · rw [if_neg h1]
          by_cases h2 : i = q
          · rw [if_pos h2, h2, sub_zero]
          · rw [if_neg h2]
      rw [hff]
  · intro hpos
    exact theil_transfer_le f f' p q δ hpos hpq hδ hf'i hle2

/-- C8 witness: on the (deliberately unsorted) vector `(3, 1)`, transferring
`1` from the richer element to the poorer one gives `(2, 2)` and does not
increase `gini` (nor, the entries being positive, `theil`). -/
theorem pigou_dalton_transfer_witness :
    gini (List.ofFn (fun i : Fin 2 =>
        if i = 1 then (fun j : Fin 2 => if j = 0 then (3 : ℝ) else 1) 1 + 1
        else if i = 0 then (fun j : Fin 2 => if j = 0 then (3 : ℝ) else 1) 0 - 1
        else (fun j : Fin 2 => if j = 0 then (3 : ℝ) else 1) i))
      ≤ gini (List.ofFn (fun j : Fin 2 => if j = 0 then (3 : ℝ) else 1))
    ∧ theil (List.ofFn (fun i : Fin 2 =>
        if i = 1 then (fun j : Fin 2 => if j = 0 then (3 : ℝ) else 1) 1 + 1
        else if i = 0 then (fun j : Fin 2 => if j = 0 then (3 : ℝ) else 1) 0 - 1
        else (fun j : Fin 2 => if j = 0 then (3 : ℝ) else 1) i))
      ≤ theil (List.ofFn (fun j : Fin 2 => if j = 0 then (3 : ℝ) else 1)) := by
  have hnonneg : ∀ i : Fin 2, (0 : ℝ) ≤ (fun j : Fin 2 => if j = 0 then (3 : ℝ) else 1) i := by
    intro i
    fin_cases i <;> norm_num
  have hpos : ∀ i : Fin 2, (0 : ℝ) < (fun j : Fin 2 => if j = 0 then (3 : ℝ) else 1) i := by
    intro i
    fin_cases i <;> norm_num
  have horder : ∀ i j : Fin 2,
      (fun j : Fin 2 => if j = 0 then (3 : ℝ) else 1) i
        ≤ (fun j : Fin 2 => if j = 0 then (3 : ℝ) else 1) j →
      (fun i : Fin 2 =>
        if i = 1 then (fun j : Fin 2 => if j = 0 then (3 : ℝ) else 1) 1 + 1
        else if i = 0 then (fun j : Fin 2 => if j = 0 then (3 : ℝ) else 1) 0 - 1
        else (fun j : Fin 2 => if j = 0 then (3 : ℝ) else 1) i) i
        ≤ (fun i : Fin 2 =>
        if i = 1 then (fun j : Fin 2 => if j = 0 then (3 : ℝ) else 1) 1 + 1
        else if i = 0 then (fun j : Fin 2 => if j = 0 then (3 : ℝ) else 1) 0 - 1
        else (fun j : Fin 2 => if j = 0 then (3 : ℝ) else 1) i) j := by
    intro i j _
    fin_cases i <;> fin_cases j <;> norm_num
  have h := pigou_dalton_transfer (fun j : Fin 2 => if j = 0 then (3 : ℝ) else 1) _
    (1 : Fin 2) (0 : Fin 2) 1 hnonneg (by decide) (by norm_num) (by norm_num) rfl horder
  exact ⟨h.1, h.2 hpos⟩

/-- C8 counterexample: on the nonnegative vector `(0, 1)`, the Pigou–Dalton
transfer of `δ = 10⁻⁹` from the richer element to the poorer one (valid:
`0 + δ ≤ 1 - δ`, no reordering) strictly *increases* `theil`: the code
replaces the exact zero by `10⁻⁸` before computing shares, and the
transferred vector's poor element `10⁻⁹` is smaller than that imputed
value, so the measured inequality goes up. -/
theorem pigou_dalton_theil_counterexample :
    ((0 : ℝ) ≤ 1) ∧ ((0 : ℝ) ≤ 1/1000000000) ∧
    ((0 : ℝ) + 1/1000000000 ≤ 1 - 1/1000000000) ∧
    theil [(0 : ℝ), 1] < theil [(1 : ℝ)/1000000000, 1 - 1/1000000000] := by
  refine ⟨by norm_num, by norm_num, by norm_num, ?_⟩
  have L9l := Real.log_two_gt_d9
  have L9u := Real.log_two_lt_d9
  have e1 : theil [(0 : ℝ), 1]
      = (1/100000001) * Real.log (2 * (1/100000001))
        + (100000000/100000001) * Real.log (2 * (100000000/100000001)) := by
    rw [theil]
    norm_num
  have e2 : theil [(1 : ℝ)/1000000000, 1 - 1/1000000000]
      = (1/1000000000) * Real.log (2 * (1/1000000000))
        + (999999999/1000000000) * Real.log (2 * (999999999/1000000000)) := by
    rw [theil]
    norm_num
  rw [e1, e2]
  have hA : Real.log (2 * ((1 : ℝ)/100000001)) ≤ -(25 * Real.log 2) := by
    have h1 : Real.log (2 * ((1 : ℝ)/100000001)) ≤ Real.log ((1 : ℝ)/33554432) :=
      Real.log_le_log (by norm_num) (by norm_num)
    have h2 : Real.log ((1 : ℝ)/33554432) = -(25 * Real.log 2) := by
      rw [show (1 : ℝ)/33554432 = ((2 : ℝ)^(25 : ℕ))⁻¹ by norm_num,
        Real.log_inv, Real.log_pow]
      push_cast
      ring
    linarith
  have hBlo : (0 : ℝ) ≤ Real.log (2 * ((100000000 : ℝ)/100000001)) :=
    Real.log_nonneg (by norm_num)
  have hBhi : Real.log (2 * ((100000000 : ℝ)/100000001)) ≤ Real.log 2 :=
    Real.log_le_log (by norm_num) (by norm_num)
  have hC : -(29 * Real.log 2) ≤ Real.log (2 * ((1 : ℝ)/1000000000)) := by
    have h1 : Real.log ((1 : ℝ)/536870912) ≤ Real.log (2 * ((1 : ℝ)/1000000000)) :=
      Real.log_le_log (by norm_num) (by norm_num)
    have h2 : Real.log ((1 : ℝ)/536870912) = -(29 * Real.log 2) := by
      rw [show (1 : ℝ)/536870912 = ((2 : ℝ)^(29 : ℕ))⁻¹ by norm_num,
        Real.log_inv, Real.log_pow]
      push_cast
      ring
    linarith
  have hD : Real.log 2 - 2/1000000000 ≤ Real.log (2 * ((999999999 : ℝ)/1000000000)) := by
    have hsplit : Real.log (2 * ((999999999 : ℝ)/1000000000))
        = Real.log 2 + Real.log ((999999999 : ℝ)/1000000000) :=
      Real.log_mul (by norm_num) (by norm_num)
    have h1 : Real.log ((1000000000 : ℝ)/999999999) ≤ (1000000000 : ℝ)/999999999 - 1 :=
      Real.log_le_sub_one_of_pos (by norm_num)
    have h2 : Real.log ((999999999 : ℝ)/1000000000)
        = -Real.log ((1000000000 : ℝ)/999999999) := by
      rw [show (999999999 : ℝ)/1000000000 = ((1000000000 : ℝ)/999999999)⁻¹ by norm_num,
        Real.log_inv]
    have h3 : (1000000000 : ℝ)/999999999 - 1 ≤ 2/1000000000 := by norm_num
    rw [hsplit, h2]
    linarith
  linarith

end Inequality

end Longevity
